import Mathlib

/-!
Verification of the conversation-log compaction core of `gamecode-context`.

The definitions below are a shallow embedding of the Rust sources
`src/session.rs` and `src/compaction.rs`:

* `Message` models `session::Message`; `contentLen` models `content.len()`
  (the byte length of the content string), which is the only use the core
  makes of the content.  `id` models the opaque `Uuid`.
* `Message.estimateTokens`, `totalTokens` model `Message::estimate_tokens`
  and `Session::total_tokens`.
* `compactSliding`, `keepSystem`, `keepRecent`, `compactSystemAndRecent`,
  `compactIntelligent` and `Session.compact` model the corresponding
  private methods and `Session::compact`.
* `IntelligentCompactor` with `messagePriority`, `selectGreedy` and
  `IntelligentCompactor.compact` models the trait object in
  `compaction.rs`; Rust `f64` scores are modelled as exact rationals.
* `managerAddMessage` / `managerAddMessageE` model the in-memory effect and
  the result of `SessionManager::add_message`, with the storage
  collaborator abstracted as a `save` function returning `Except`.
-/

namespace GC

/-- Role of a message, mirroring `session::MessageRole`. -/
inductive MessageRole where
  | System
  | User
  | Assistant
  | Tool
deriving DecidableEq, Repr

/-- A single message, mirroring `session::Message`.  `contentLen` models
`content.len()` and `tokenCount` the optional cached count; `id` models
the `Uuid`.  The `timestamp` and `metadata` fields of the source are never
read by the compaction core and are omitted. -/
structure Message where
  id : Nat
  role : MessageRole
  contentLen : Nat
  tokenCount : Option Nat
deriving DecidableEq, Repr

/-- Fallback message used with `List.getD`; the source indexes
`session.messages[original_index]` with indices that are always in range. -/
def mdefault : Message := ⟨0, MessageRole.System, 0, none⟩

/-- Model of `Message::estimate_tokens`: the cached count when present,
otherwise `(content.len() + 3) / 4`. -/
def Message.estimateTokens (m : Message) : Nat :=
  match m.tokenCount with
  | some count => count
  | none => (m.contentLen + 3) / 4

/-- Model of `Session::total_tokens`: the sum of the per-message estimates. -/
def totalTokens (msgs : List Message) : Nat :=
  (msgs.map Message.estimateTokens).sum

/-- Model of `compaction::CompactionStrategy`. -/
inductive CompactionStrategy where
  | Sliding (maxTokens : Nat)
  | SystemAndRecent (systemTokens recentTokens : Nat)
  | Intelligent (targetTokens : Nat)

/-- Model of `Session::compact_sliding`: drop the oldest message while the
total exceeds `maxTokens` and the list is non-empty. -/
def compactSliding (maxTokens : Nat) : List Message → List Message
  | [] => []
  | m :: rest =>
    if maxTokens < totalTokens (m :: rest) then compactSliding maxTokens rest
    else m :: rest

/-- Model of the first loop of `Session::compact_system_and_recent`: scan
oldest-to-newest, keeping a System message when the running total stays
within `systemTokens`; an overflowing System message is skipped and the
scan continues. -/
def keepSystem (systemTokens : Nat) (acc : Nat) : List Message → List Message
  | [] => []
  | m :: rest =>
    if m.role = MessageRole.System then
      if acc + m.estimateTokens ≤ systemTokens then
        m :: keepSystem systemTokens (acc + m.estimateTokens) rest
      else
        keepSystem systemTokens acc rest
    else
      keepSystem systemTokens acc rest

/-- Model of the second loop of `Session::compact_system_and_recent`: the
argument list is the reversed message list (newest first); a non-System
message is prepended while the running total stays within `recentTokens`,
and the first overflowing non-System message breaks the whole scan. -/
def keepRecent (recentTokens : Nat) (acc : Nat) : List Message → List Message
  | [] => []
  | m :: rest =>
    if m.role = MessageRole.System then
      keepRecent recentTokens acc rest
    else
      if acc + m.estimateTokens ≤ recentTokens then
        keepRecent recentTokens (acc + m.estimateTokens) rest ++ [m]
      else
        []

/-- Model of `Session::compact_system_and_recent`: kept System messages
followed by kept recent messages. -/
def compactSystemAndRecent (systemTokens recentTokens : Nat)
    (msgs : List Message) : List Message :=
  keepSystem systemTokens 0 msgs ++ keepRecent recentTokens 0 msgs.reverse

/-- Model of `Session::compact_intelligent`, which delegates to
`compact_system_and_recent` with budgets `target/4` and `target*3/4`. -/
def compactIntelligent (targetTokens : Nat) (msgs : List Message) : List Message :=
  compactSystemAndRecent (targetTokens / 4) (targetTokens * 3 / 4) msgs

/-- Model of `Session::compact`: no-op when already within `targetTokens`,
otherwise dispatch on the strategy. -/
def Session.compact (strategy : CompactionStrategy) (targetTokens : Nat)
    (msgs : List Message) : List Message :=
  if totalTokens msgs ≤ targetTokens then msgs
  else
    match strategy with
    | CompactionStrategy.Sliding maxTokens => compactSliding maxTokens msgs
    | CompactionStrategy.SystemAndRecent s r => compactSystemAndRecent s r msgs
    | CompactionStrategy.Intelligent t => compactIntelligent t msgs

/-- Model of `compaction::IntelligentCompactor`: the configurable minimum
number of recent messages and the three scoring weights (`f64` weights are
modelled as rationals). -/
structure IntelligentCompactor where
  minRecentMessages : Nat
  recencyWeight : ℚ
  roleWeight : ℚ
  contentWeight : ℚ

/-- Model of `IntelligentCompactor::default()`: `min_recent_messages = 5`,
weights `1.0`, `0.5`, `0.3`. -/
def IntelligentCompactor.default : IntelligentCompactor :=
  ⟨5, 1, 1 / 2, 3 / 10⟩

/-- Model of `IntelligentCompactor::message_priority`: recency (first
position of the message's id divided by the log length), a fixed role
score, and a capped content-length score, each weighted and summed. -/
def messagePriority (c : IntelligentCompactor) (m : Message)
    (msgs : List Message) : ℚ :=
  let position : Nat := (msgs.findIdx? (fun x => x.id == m.id)).getD 0
  let recencyScore : ℚ := (position : ℚ) / (msgs.length : ℚ)
  let roleScore : ℚ :=
    match m.role with
    | MessageRole.System => 1
    | MessageRole.Tool => 4 / 5
    | MessageRole.Assistant => 3 / 5
    | MessageRole.User => 2 / 5
  let contentScore : ℚ := min ((m.contentLen : ℚ) / 1000) 1
  recencyScore * c.recencyWeight + roleScore * c.roleWeight
    + contentScore * c.contentWeight

/-- Model of the acceptance loop of `IntelligentCompactor::compact`: walk
the priority-sorted `(index, priority)` pairs, accepting an index when the
running token count stays within `target`; a rejected candidate is skipped
and the scan continues. -/
def selectGreedy (msgs : List Message) (target : Nat) :
    Nat → List (Nat × ℚ) → List Nat
  | _, [] => []
  | tokenCount, (i, _) :: rest =>
    let t := (msgs.getD i mdefault).estimateTokens
    if tokenCount + t ≤ target then
      i :: selectGreedy msgs target (tokenCount + t) rest
    else
      selectGreedy msgs target tokenCount rest

/-- Number of messages considered for priority-based eviction in
`IntelligentCompactor::compact`: all but the last
`min(min_recent_messages, len)` messages. -/
def icToConsider (c : IntelligentCompactor) (msgs : List Message) : Nat :=
  msgs.length - min c.minRecentMessages msgs.length

/-- The candidate `(index, priority)` pairs of `IntelligentCompactor::compact`,
sorted by priority descending (Rust's stable `sort_by` with
`b.partial_cmp(a)`). -/
def icSorted (c : IntelligentCompactor) (msgs : List Message) :
    List (Nat × ℚ) :=
  (((msgs.take (icToConsider c msgs)).enum).map
      (fun p => (p.1, messagePriority c p.2 msgs))).mergeSort
    (fun a b => decide (b.2 ≤ a.2))

/-- The indices accepted by the greedy loop of
`IntelligentCompactor::compact`, in acceptance order; the running count
starts at the token total of the unconditionally kept recent messages. -/
def icKeptIdx (c : IntelligentCompactor) (target : Nat)
    (msgs : List Message) : List Nat :=
  selectGreedy msgs target (totalTokens (msgs.drop (icToConsider c msgs)))
    (icSorted c msgs)

/-- Model of `IntelligentCompactor::compact`: no-op under budget, otherwise
the accepted older messages re-sorted into chronological order followed by
the unconditionally kept recent messages. -/
def IntelligentCompactor.compact (c : IntelligentCompactor) (target : Nat)
    (msgs : List Message) : List Message :=
  if totalTokens msgs ≤ target then msgs
  else
    ((icKeptIdx c target msgs).mergeSort (fun i j => decide (i ≤ j))).map
        (fun i => msgs.getD i mdefault)
      ++ msgs.drop (icToConsider c msgs)

/-- Model of `error::ContextError`; foreign payload types are modelled as
strings. -/
inductive ContextError where
  | Io (msg : String)
  | Serialization (msg : String)
  | SessionNotFound (msg : String)
  | InvalidSession (msg : String)
  | CompactionFailed (msg : String)
  | TokenEstimation (msg : String)
  | Storage (msg : String)
  | Config (msg : String)
deriving DecidableEq, Repr

/-- Model of `Session::compact` with its `Result` return: every branch of
the source returns `Ok`. -/
def Session.compactE (strategy : CompactionStrategy) (targetTokens : Nat)
    (msgs : List Message) : Except ContextError (List Message) :=
  if totalTokens msgs ≤ targetTokens then Except.ok msgs
  else
    match strategy with
    | CompactionStrategy.Sliding maxTokens =>
      Except.ok (compactSliding maxTokens msgs)
    | CompactionStrategy.SystemAndRecent s r =>
      Except.ok (compactSystemAndRecent s r msgs)
    | CompactionStrategy.Intelligent t =>
      Except.ok (compactIntelligent t msgs)

/-- The configuration of a `SessionManager`: compaction strategy, token
budget and the auto-save flag (the storage backend is abstracted). -/
structure ManagerConfig where
  compactionStrategy : CompactionStrategy
  maxTokens : Nat
  autoSave : Bool

/-- In-memory effect of `SessionManager::add_message` on the session's
message list: append, then compact with the configured strategy and
`max_tokens` as budget when the total exceeds `max_tokens`. -/
def managerAddMessage (cfg : ManagerConfig) (msgs : List Message)
    (m : Message) : List Message :=
  let appended := msgs ++ [m]
  if cfg.maxTokens < totalTokens appended then
    Session.compact cfg.compactionStrategy cfg.maxTokens appended
  else
    appended

/-- Model of `SessionManager::add_message` including the fallible storage
hand-off: the result is the returned `Result` together with the final
in-memory message list.  `save` models `storage.save_session`. -/
def managerAddMessageE (cfg : ManagerConfig)
    (save : List Message → Except ContextError Unit) (msgs : List Message)
    (m : Message) : Except ContextError Unit × List Message :=
  let appended := msgs ++ [m]
  match (if cfg.maxTokens < totalTokens appended then
      Session.compactE cfg.compactionStrategy cfg.maxTokens appended
    else
      Except.ok appended) with
  | Except.error e => (Except.error e, appended)
  | Except.ok final =>
    if cfg.autoSave then
      match save final with
      | Except.ok _ => (Except.ok (), final)
      | Except.error e => (Except.error e, final)
    else
      (Except.ok (), final)

/-- Spec-side rendering of the SystemAndRecent step 1, following the
spec's words: "Scan turns oldest-to-newest; greedily keep System-role
turns while their cumulative estimated tokens stay ≤ system_budget (skip —
do not replace — any System turn that would overflow the budget; once
skipped it is dropped permanently, scanning continues past it)". -/
def specKeepSystem (systemBudget : Nat) (msgs : List Message) : List Message :=
  (msgs.foldl
    (fun st m =>
      if m.role = MessageRole.System ∧ st.2 + m.estimateTokens ≤ systemBudget then
        (st.1 ++ [m], st.2 + m.estimateTokens)
      else st)
    (([] : List Message), 0)).1

/-- Spec-side rendering of the SystemAndRecent step 2, following the
spec's words: "Scan all non-System turns newest-to-oldest; greedily keep
them while cumulative tokens stay ≤ recent_budget; stop accumulating at
the first turn that would overflow (all older non-System turns are
dropped, even if individually small)".  The state is (kept turns in
chronological order, cumulative tokens, stopped flag). -/
def specKeepRecent (recentBudget : Nat) (msgs : List Message) : List Message :=
  (msgs.reverse.foldl
    (fun st m =>
      if st.2.2 then st
      else if m.role = MessageRole.System then st
      else if st.2.1 + m.estimateTokens ≤ recentBudget then
        (m :: st.1, (st.2.1 + m.estimateTokens, false))
      else (st.1, (st.2.1, true)))
    (([] : List Message), (0, false))).1

theorem totalTokens_nil : totalTokens [] = 0 := rfl

theorem totalTokens_cons (m : Message) (l : List Message) :
    totalTokens (m :: l) = m.estimateTokens + totalTokens l := by
  simp [totalTokens]

theorem totalTokens_append (l₁ l₂ : List Message) :
    totalTokens (l₁ ++ l₂) = totalTokens l₁ + totalTokens l₂ := by
  simp [totalTokens]

theorem totalTokens_compactSliding_le (mx : Nat) (l : List Message) :
    totalTokens (compactSliding mx l) ≤ mx := by
  induction l with
  | nil => simp [compactSliding, totalTokens]
  | cons m rest ih =>
    rw [compactSliding]
    split
    · exact ih
    · omega

theorem compactSliding_of_le (mx : Nat) (l : List Message)
    (h : totalTokens l ≤ mx) : compactSliding mx l = l := by
  cases l with
  | nil => rfl
  | cons m rest => rw [compactSliding, if_neg (by omega)]

theorem compactSliding_idem (mx : Nat) (l : List Message) :
    compactSliding mx (compactSliding mx l) = compactSliding mx l :=
  compactSliding_of_le mx _ (totalTokens_compactSliding_le mx l)

theorem keepSystem_total (s : Nat) :
    ∀ (l : List Message) (acc : Nat), acc ≤ s →
      acc + totalTokens (keepSystem s acc l) ≤ s := by
  intro l
  induction l with
  | nil => intro acc h; simpa [keepSystem, totalTokens] using h
  | cons m rest ih =>
    intro acc h
    rw [keepSystem]
    by_cases hrole : m.role = MessageRole.System
    · rw [if_pos hrole]
      by_cases hb : acc + m.estimateTokens ≤ s
      · rw [if_pos hb, totalTokens_cons]
        have := ih (acc + m.estimateTokens) hb
        omega
      · rw [if_neg hb]; exact ih acc h
    · rw [if_neg hrole]; exact ih acc h

theorem keepRecent_total (r : Nat) :
    ∀ (l : List Message) (acc : Nat), acc ≤ r →
      acc + totalTokens (keepRecent r acc l) ≤ r := by
  intro l
  induction l with
  | nil => intro acc h; simpa [keepRecent, totalTokens] using h
  | cons m rest ih =>
    intro acc h
    rw [keepRecent]
    by_cases hrole : m.role = MessageRole.System
    · rw [if_pos hrole]; exact ih acc h
    · rw [if_neg hrole]
      by_cases hb : acc + m.estimateTokens ≤ r
      · rw [if_pos hb, totalTokens_append, totalTokens_cons]
        have := ih (acc + m.estimateTokens) hb
        simp [totalTokens] at this ⊢
        omega
      · rw [if_neg hb]
        simpa [totalTokens] using h

theorem totalTokens_compactSystemAndRecent_le (s r : Nat) (l : List Message) :
    totalTokens (compactSystemAndRecent s r l) ≤ s + r := by
  rw [compactSystemAndRecent, totalTokens_append]
  have h1 := keepSystem_total s l 0 (Nat.zero_le s)
  have h2 := keepRecent_total r l.reverse 0 (Nat.zero_le r)
  omega

theorem keepSystem_role (s : Nat) :
    ∀ (l : List Message) (acc : Nat) (m : Message),
      m ∈ keepSystem s acc l → m.role = MessageRole.System := by
  intro l
  induction l with
  | nil => intro acc m h; simp [keepSystem] at h
  | cons x rest ih =>
    intro acc m h
    rw [keepSystem] at h
    by_cases hrole : x.role = MessageRole.System
    · rw [if_pos hrole] at h
      by_cases hb : acc + x.estimateTokens ≤ s
      · rw [if_pos hb] at h
        rcases List.mem_cons.mp h with h | h
        · rw [h]; exact hrole
        · exact ih _ m h
      · rw [if_neg hb] at h; exact ih _ m h
    · rw [if_neg hrole] at h; exact ih _ m h

theorem keepRecent_role (r : Nat) :
    ∀ (l : List Message) (acc : Nat) (m : Message),
      m ∈ keepRecent r acc l → m.role ≠ MessageRole.System := by
  intro l
  induction l with
  | nil => intro acc m h; simp [keepRecent] at h
  | cons x rest ih =>
    intro acc m h
    rw [keepRecent] at h
    by_cases hrole : x.role = MessageRole.System
    · rw [if_pos hrole] at h; exact ih _ m h
    · rw [if_neg hrole] at h
      by_cases hb : acc + x.estimateTokens ≤ r
      · rw [if_pos hb] at h
        rcases List.mem_append.mp h with h | h
        · exact ih _ m h
        · rw [List.mem_singleton.mp h]; exact hrole
      · rw [if_neg hb] at h; simp at h

theorem keepSystem_nil_of_no_system (s : Nat) :
    ∀ (l : List Message) (acc : Nat),
      (∀ m ∈ l, m.role ≠ MessageRole.System) → keepSystem s acc l = [] := by
  intro l
  induction l with
  | nil => intro acc _; rfl
  | cons x rest ih =>
    intro acc h
    rw [keepSystem, if_neg (h x (List.mem_cons_self x rest))]
    exact ih acc (fun m hm => h m (List.mem_cons_of_mem x hm))

theorem keepRecent_nil_of_all_system (r : Nat) :
    ∀ (l : List Message) (acc : Nat),
      (∀ m ∈ l, m.role = MessageRole.System) → keepRecent r acc l = [] := by
  intro l
  induction l with
  | nil => intro acc _; rfl
  | cons x rest ih =>
    intro acc h
    rw [keepRecent, if_pos (h x (List.mem_cons_self x rest))]
    exact ih acc (fun m hm => h m (List.mem_cons_of_mem x hm))

theorem keepSystem_fixed (s : Nat) :
    ∀ (l : List Message) (acc : Nat) (tail : List Message),
      (∀ m ∈ tail, m.role ≠ MessageRole.System) →
      keepSystem s acc (keepSystem s acc l ++ tail) = keepSystem s acc l := by
  intro l
  induction l with
  | nil =>
    intro acc tail htail
    rw [keepSystem]
    exact keepSystem_nil_of_no_system s tail acc htail
  | cons m rest ih =>
    intro acc tail htail
    rw [keepSystem]
    by_cases hrole : m.role = MessageRole.System
    · rw [if_pos hrole]
      by_cases hb : acc + m.estimateTokens ≤ s
      · rw [if_pos hb, List.cons_append, keepSystem, if_pos hrole, if_pos hb,
          ih (acc + m.estimateTokens) tail htail]
      · rw [if_neg hb]; exact ih acc tail htail
    · rw [if_neg hrole]; exact ih acc tail htail

theorem keepRecent_fixed (r : Nat) :
    ∀ (l : List Message) (acc : Nat) (tail : List Message),
      (∀ m ∈ tail, m.role = MessageRole.System) →
      keepRecent r acc ((keepRecent r acc l).reverse ++ tail) =
        keepRecent r acc l := by
  intro l
  induction l with
  | nil =>
    intro acc tail htail
    rw [keepRecent]
    exact keepRecent_nil_of_all_system r tail acc htail
  | cons m rest ih =>
    intro acc tail htail
    rw [keepRecent]
    by_cases hrole : m.role = MessageRole.System
    · rw [if_pos hrole]; exact ih acc tail htail
    · rw [if_neg hrole]
      by_cases hb : acc + m.estimateTokens ≤ r
      · rw [if_pos hb]
        rw [List.reverse_append, List.reverse_singleton, List.singleton_append,
          List.cons_append, keepRecent, if_neg hrole, if_pos hb,
          ih (acc + m.estimateTokens) tail htail]
      · rw [if_neg hb, List.reverse_nil, List.nil_append]
        exact keepRecent_nil_of_all_system r tail acc htail

theorem compactSystemAndRecent_idem (s r : Nat) (l : List Message) :
    compactSystemAndRecent s r (compactSystemAndRecent s r l) =
      compactSystemAndRecent s r l := by
  rw [compactSystemAndRecent, compactSystemAndRecent]
  have hsys : keepSystem s 0 (keepSystem s 0 l ++ keepRecent r 0 l.reverse) =
      keepSystem s 0 l :=
    keepSystem_fixed s l 0 _ (fun m hm => keepRecent_role r l.reverse 0 m hm)
  have hrec : keepRecent r 0
      ((keepSystem s 0 l ++ keepRecent r 0 l.reverse).reverse) =
      keepRecent r 0 l.reverse := by
    rw [List.reverse_append]
    exact keepRecent_fixed r l.reverse 0 _
      (fun m hm => keepSystem_role s l 0 m (List.mem_reverse.mp hm))
  rw [hsys, hrec]

theorem selectGreedy_sublist (msgs : List Message) (target : Nat) :
    ∀ (l : List (Nat × ℚ)) (tc : Nat),
      List.Sublist (selectGreedy msgs target tc l) (l.map Prod.fst) := by
  intro l
  induction l with
  | nil => intro tc; simp [selectGreedy]
  | cons p rest ih =>
    intro tc
    obtain ⟨i, q⟩ := p
    simp only [selectGreedy, List.map_cons]
    split
    · exact List.Sublist.cons₂ i (ih _)
    · exact List.Sublist.cons i (ih _)

theorem selectGreedy_nil_of_gt (msgs : List Message) (target : Nat) :
    ∀ (l : List (Nat × ℚ)) (tc : Nat), target < tc →
      selectGreedy msgs target tc l = [] := by
  intro l
  induction l with
  | nil => intro tc _; rfl
  | cons p rest ih =>
    intro tc h
    obtain ⟨i, q⟩ := p
    simp only [selectGreedy]
    rw [if_neg (by omega)]
    exact ih tc h

theorem selectGreedy_tokens_le (msgs : List Message) (target : Nat) :
    ∀ (l : List (Nat × ℚ)) (tc : Nat), tc ≤ target →
      tc + ((selectGreedy msgs target tc l).map
        (fun i => (msgs.getD i mdefault).estimateTokens)).sum ≤ target := by
  intro l
  induction l with
  | nil => intro tc h; simpa [selectGreedy] using h
  | cons p rest ih =>
    intro tc h
    obtain ⟨i, q⟩ := p
    simp only [selectGreedy]
    split
    · rename_i hb
      have := ih (tc + (msgs.getD i mdefault).estimateTokens) hb
      simp only [List.map_cons, List.sum_cons]
      omega
    · exact ih tc h

theorem icSorted_map_fst_perm (c : IntelligentCompactor) (msgs : List Message) :
    List.Perm ((icSorted c msgs).map Prod.fst)
      (List.range (icToConsider c msgs)) := by
  have h1 : List.Perm (icSorted c msgs)
      (((msgs.take (icToConsider c msgs)).enum).map
        (fun p => (p.1, messagePriority c p.2 msgs))) :=
    List.mergeSort_perm _ _
  have h2 := h1.map Prod.fst
  rw [List.map_map] at h2
  have h3 : (Prod.fst ∘ fun p : Nat × Message =>
      (p.1, messagePriority c p.2 msgs)) = Prod.fst := rfl
  rw [h3, List.enum_map_fst, List.length_take] at h2
  have h4 : icToConsider c msgs ≤ msgs.length := by
    rw [icToConsider]; omega
  have h5 : min (icToConsider c msgs) msgs.length = icToConsider c msgs := by
    omega
  rw [h5] at h2
  exact h2

theorem icKeptIdx_sublist (c : IntelligentCompactor) (t : Nat)
    (msgs : List Message) :
    List.Sublist (icKeptIdx c t msgs) ((icSorted c msgs).map Prod.fst) :=
  selectGreedy_sublist msgs t _ _

theorem icKeptIdx_nodup (c : IntelligentCompactor) (t : Nat)
    (msgs : List Message) : (icKeptIdx c t msgs).Nodup := by
  have h1 : ((icSorted c msgs).map Prod.fst).Nodup :=
    (icSorted_map_fst_perm c msgs).nodup_iff.mpr (List.nodup_range _)
  exact (icKeptIdx_sublist c t msgs).nodup h1

theorem icKeptIdx_lt (c : IntelligentCompactor) (t : Nat)
    (msgs : List Message) :
    ∀ i ∈ icKeptIdx c t msgs, i < icToConsider c msgs := by
  intro i hi
  have h1 : i ∈ (icSorted c msgs).map Prod.fst :=
    (icKeptIdx_sublist c t msgs).subset hi
  have h2 : i ∈ List.range (icToConsider c msgs) :=
    (icSorted_map_fst_perm c msgs).subset h1
  exact List.mem_range.mp h2

theorem map_getD_sublist {α : Type} (d : α) :
    ∀ (l : List α) (idxs : List Nat), List.Pairwise (· < ·) idxs →
      (∀ i ∈ idxs, i < l.length) →
      List.Sublist (idxs.map (fun i => l.getD i d)) l := by
  intro l
  induction l with
  | nil =>
    intro idxs _ hb
    cases idxs with
    | nil => simp
    | cons i rest => exact absurd (hb i (List.mem_cons_self i rest)) (by simp)
  | cons a l' ih =>
    intro idxs hpw hb
    cases idxs with
    | nil => exact List.nil_sublist _
    | cons i rest =>
      have hpw' : List.Pairwise (· < ·) rest := hpw.of_cons
      have hlt : ∀ j ∈ rest, i < j := fun j hj => List.rel_of_pairwise_cons hpw hj
      cases i with
      | zero =>
        simp only [List.map_cons, List.getD_cons_zero]
        have heq : rest.map (fun j => (a :: l').getD j d)
            = (rest.map (fun j => j - 1)).map (fun j => l'.getD j d) := by
          rw [List.map_map]
          apply List.map_congr_left
          intro j hj
          have h1 : 0 < j := hlt j hj
          cases j with
          | zero => omega
          | succ j' => simp [List.getD_cons_succ]
        rw [heq]
        refine List.Sublist.cons₂ a (ih _ ?_ ?_)
        · rw [List.pairwise_map]
          refine hpw'.imp_of_mem ?_
          intro x y hx _ hxy
          have := hlt x hx
          omega
        · intro j hj
          rw [List.mem_map] at hj
          obtain ⟨x, hx, rfl⟩ := hj
          have h1 := hlt x hx
          have h2 := hb x (List.mem_cons_of_mem _ hx)
          simp at h2 ⊢
          omega
      | succ i' =>
        have hall : ∀ j ∈ ((i' + 1) :: rest), 1 ≤ j := by
          intro j hj
          rcases List.mem_cons.mp hj with rfl | hj
          · omega
          · have := hlt j hj; omega
        have heq : ((i' + 1) :: rest).map (fun j => (a :: l').getD j d)
            = (((i' + 1) :: rest).map (fun j => j - 1)).map
                (fun j => l'.getD j d) := by
          rw [List.map_map]
          apply List.map_congr_left
          intro j hj
          have h1 := hall j hj
          cases j with
          | zero => omega
          | succ j' => simp [List.getD_cons_succ]
        rw [heq]
        refine List.Sublist.cons a (ih _ ?_ ?_)
        · rw [List.pairwise_map]
          refine hpw.imp_of_mem ?_
          intro x y hx _ hxy
          have := hall x hx
          omega
        · intro j hj
          rw [List.mem_map] at hj
          obtain ⟨x, hx, rfl⟩ := hj
          have h1 := hall x hx
          have h2 := hb x hx
          simp at h2 ⊢
          omega

theorem icCompact_sublist (c : IntelligentCompactor) (t : Nat)
    (msgs : List Message) :
    List.Sublist (IntelligentCompactor.compact c t msgs) msgs := by
  rw [IntelligentCompactor.compact]
  split
  · exact List.Sublist.refl msgs
  · have hnle : icToConsider c msgs ≤ msgs.length := by
      rw [icToConsider]; omega
    have hperm : List.Perm
        ((icKeptIdx c t msgs).mergeSort (fun i j => decide (i ≤ j)))
        (icKeptIdx c t msgs) := List.mergeSort_perm _ _
    have hnodup :
        ((icKeptIdx c t msgs).mergeSort (fun i j => decide (i ≤ j))).Nodup :=
      hperm.nodup_iff.mpr (icKeptIdx_nodup c t msgs)
    have hlt : ∀ i ∈ (icKeptIdx c t msgs).mergeSort (fun i j => decide (i ≤ j)),
        i < icToConsider c msgs := by
      intro i hi
      exact icKeptIdx_lt c t msgs i (hperm.subset hi)
    have hsorted : List.Pairwise (fun i j => decide (i ≤ j) = true)
        ((icKeptIdx c t msgs).mergeSort (fun i j => decide (i ≤ j))) :=
      List.sorted_mergeSort
        (fun a b cc hab hbc => by simp at hab hbc ⊢; omega)
        (fun a b => by simp; omega) (icKeptIdx c t msgs)
    have hpw : List.Pairwise (· < ·)
        ((icKeptIdx c t msgs).mergeSort (fun i j => decide (i ≤ j))) := by
      have hle : List.Pairwise (· ≤ ·)
          ((icKeptIdx c t msgs).mergeSort (fun i j => decide (i ≤ j))) :=
        hsorted.imp (fun h => of_decide_eq_true h)
      have hne : List.Pairwise (· ≠ ·)
          ((icKeptIdx c t msgs).mergeSort (fun i j => decide (i ≤ j))) := hnodup
      exact (hle.and hne).imp (fun h => lt_of_le_of_ne h.1 h.2)
    have hmap : ((icKeptIdx c t msgs).mergeSort
          (fun i j => decide (i ≤ j))).map (fun i => msgs.getD i mdefault)
        = ((icKeptIdx c t msgs).mergeSort (fun i j => decide (i ≤ j))).map
            (fun i => (msgs.take (icToConsider c msgs)).getD i mdefault) := by
      apply List.map_congr_left
      intro i hi
      rw [List.getD_eq_getElem?_getD, List.getD_eq_getElem?_getD,
        List.getElem?_take, if_pos (hlt i hi)]
    have hsub1 : List.Sublist
        (((icKeptIdx c t msgs).mergeSort (fun i j => decide (i ≤ j))).map
          (fun i => msgs.getD i mdefault))
        (msgs.take (icToConsider c msgs)) := by
      rw [hmap]
      apply map_getD_sublist mdefault (msgs.take (icToConsider c msgs)) _ hpw
      intro i hi
      rw [List.length_take]
      have := hlt i hi
      omega
    have hfull := List.Sublist.append hsub1
      (List.Sublist.refl (msgs.drop (icToConsider c msgs)))
    rwa [List.take_append_drop] at hfull

theorem icCompact_total_structure (c : IntelligentCompactor) (t : Nat)
    (msgs : List Message) (h : ¬ totalTokens msgs ≤ t) :
    totalTokens (IntelligentCompactor.compact c t msgs) =
      ((icKeptIdx c t msgs).map
        (fun i => (msgs.getD i mdefault).estimateTokens)).sum
      + totalTokens (msgs.drop (icToConsider c msgs)) := by
  rw [IntelligentCompactor.compact, if_neg h, totalTokens_append]
  congr 1
  rw [totalTokens, List.map_map]
  exact ((List.mergeSort_perm (icKeptIdx c t msgs)
    (fun i j => decide (i ≤ j))).map
      (fun i => (msgs.getD i mdefault).estimateTokens)).sum_eq

theorem icCompact_eq_drop_of_total_gt (c : IntelligentCompactor) (t : Nat)
    (msgs : List Message) (h1 : ¬ totalTokens msgs ≤ t)
    (h2 : ¬ totalTokens (IntelligentCompactor.compact c t msgs) ≤ t) :
    IntelligentCompactor.compact c t msgs =
      msgs.drop (icToConsider c msgs) := by
  have hdrop : t < totalTokens (msgs.drop (icToConsider c msgs)) := by
    by_contra hle
    push_neg at hle
    have hgre := selectGreedy_tokens_le msgs t (icSorted c msgs)
      (totalTokens (msgs.drop (icToConsider c msgs))) hle
    have hsel : selectGreedy msgs t
        (totalTokens (msgs.drop (icToConsider c msgs))) (icSorted c msgs)
        = icKeptIdx c t msgs := rfl
    rw [hsel] at hgre
    have htot := icCompact_total_structure c t msgs h1
    omega
  have hk : icKeptIdx c t msgs = [] := by
    rw [icKeptIdx]
    exact selectGreedy_nil_of_gt msgs t _ _ hdrop
  rw [IntelligentCompactor.compact, if_neg h1, hk, List.mergeSort_nil,
    List.map_nil, List.nil_append]

theorem icCompact_idem (c : IntelligentCompactor) (t : Nat)
    (msgs : List Message) :
    IntelligentCompactor.compact c t (IntelligentCompactor.compact c t msgs) =
      IntelligentCompactor.compact c t msgs := by
  by_cases h1 : totalTokens msgs ≤ t
  · have e : IntelligentCompactor.compact c t msgs = msgs := by
      rw [IntelligentCompactor.compact, if_pos h1]
    rw [e]
    exact e
  · by_cases h2 : totalTokens (IntelligentCompactor.compact c t msgs) ≤ t
    · have e : ∀ l, totalTokens l ≤ t →
          IntelligentCompactor.compact c t l = l := fun l hl => by
        rw [IntelligentCompactor.compact, if_pos hl]
      exact e _ h2
    · have hd := icCompact_eq_drop_of_total_gt c t msgs h1 h2
      rw [hd] at h2 ⊢
      have hlenK : (msgs.drop (icToConsider c msgs)).length =
          min c.minRecentMessages msgs.length := by
        rw [List.length_drop, icToConsider]; omega
      have hto : icToConsider c (msgs.drop (icToConsider c msgs)) = 0 := by
        rw [icToConsider, hlenK]
        omega
      rw [IntelligentCompactor.compact, if_neg h2]
      have hsort : icSorted c (msgs.drop (icToConsider c msgs)) = [] := by
        rw [icSorted, hto]
        simp
      have hkept : icKeptIdx c t (msgs.drop (icToConsider c msgs)) = [] := by
        rw [icKeptIdx, hsort]
        rfl
      rw [hkept, hto]
      simp

theorem sessionCompact_of_le (st : CompactionStrategy) (b : Nat)
    (msgs : List Message) (h : totalTokens msgs ≤ b) :
    Session.compact st b msgs = msgs := by
  rw [Session.compact.eq_def, if_pos h]

theorem compactIntelligent_idem (tt : Nat) (msgs : List Message) :
    compactIntelligent tt (compactIntelligent tt msgs) =
      compactIntelligent tt msgs := by
  simp only [compactIntelligent]
  exact compactSystemAndRecent_idem _ _ _

theorem sessionCompact_idem (st : CompactionStrategy) (b : Nat)
    (msgs : List Message) :
    Session.compact st b (Session.compact st b msgs) =
      Session.compact st b msgs := by
  by_cases h : totalTokens msgs ≤ b
  · have e : Session.compact st b msgs = msgs := sessionCompact_of_le st b msgs h
    rw [e]
    exact e
  · cases st with
    | Sliding mx =>
      have hR : Session.compact (CompactionStrategy.Sliding mx) b msgs =
          compactSliding mx msgs := by
        rw [Session.compact.eq_def, if_neg h]
      rw [hR]
      by_cases h2 : totalTokens (compactSliding mx msgs) ≤ b
      · rw [Session.compact.eq_def, if_pos h2]
      · rw [Session.compact.eq_def, if_neg h2]
        exact compactSliding_idem mx msgs
    | SystemAndRecent s r =>
      have hR : Session.compact (CompactionStrategy.SystemAndRecent s r) b msgs =
          compactSystemAndRecent s r msgs := by
        rw [Session.compact.eq_def, if_neg h]
      rw [hR]
      by_cases h2 : totalTokens (compactSystemAndRecent s r msgs) ≤ b
      · rw [Session.compact.eq_def, if_pos h2]
      · rw [Session.compact.eq_def, if_neg h2]
        exact compactSystemAndRecent_idem s r msgs
    | Intelligent tt =>
      have hR : Session.compact (CompactionStrategy.Intelligent tt) b msgs =
          compactIntelligent tt msgs := by
        rw [Session.compact.eq_def, if_neg h]
      rw [hR]
      by_cases h2 : totalTokens (compactIntelligent tt msgs) ≤ b
      · rw [Session.compact.eq_def, if_pos h2]
      · rw [Session.compact.eq_def, if_neg h2]
        exact compactIntelligent_idem tt msgs

theorem specKeepSystem_foldl (s : Nat) :
    ∀ (l : List Message) (pre : List Message) (acc : Nat),
      (l.foldl
        (fun st m =>
          if m.role = MessageRole.System ∧ st.2 + m.estimateTokens ≤ s then
            (st.1 ++ [m], st.2 + m.estimateTokens)
          else st)
        (pre, acc)).1 = pre ++ keepSystem s acc l := by
  intro l
  induction l with
  | nil => intro pre acc; simp [keepSystem]
  | cons m rest ih =>
    intro pre acc
    rw [List.foldl_cons]
    by_cases hrole : m.role = MessageRole.System
    · by_cases hb : acc + m.estimateTokens ≤ s
      · rw [if_pos ⟨hrole, hb⟩, ih, keepSystem, if_pos hrole, if_pos hb]
        simp
      · rw [if_neg (by tauto), ih, keepSystem, if_pos hrole, if_neg hb]
    · rw [if_neg (by tauto), ih, keepSystem, if_neg hrole]

theorem specKeepSystem_eq (s : Nat) (msgs : List Message) :
    specKeepSystem s msgs = keepSystem s 0 msgs := by
  rw [specKeepSystem, specKeepSystem_foldl s msgs [] 0, List.nil_append]

theorem specKeepRecent_foldl_stopped (r : Nat) :
    ∀ (l : List Message) (kept : List Message) (acc : Nat),
      (l.foldl
        (fun st m =>
          if st.2.2 then st
          else if m.role = MessageRole.System then st
          else if st.2.1 + m.estimateTokens ≤ r then
            (m :: st.1, (st.2.1 + m.estimateTokens, false))
          else (st.1, (st.2.1, true)))
        (kept, (acc, true))).1 = kept := by
  intro l
  induction l with
  | nil => intro kept acc; rfl
  | cons m rest ih =>
    intro kept acc
    rw [List.foldl_cons, if_pos (by rfl)]
    exact ih kept acc

theorem specKeepRecent_foldl_active (r : Nat) :
    ∀ (l : List Message) (kept : List Message) (acc : Nat),
      (l.foldl
        (fun st m =>
          if st.2.2 then st
          else if m.role = MessageRole.System then st
          else if st.2.1 + m.estimateTokens ≤ r then
            (m :: st.1, (st.2.1 + m.estimateTokens, false))
          else (st.1, (st.2.1, true)))
        (kept, (acc, false))).1 = keepRecent r acc l ++ kept := by
  intro l
  induction l with
  | nil => intro kept acc; simp [keepRecent]
  | cons m rest ih =>
    intro kept acc
    rw [List.foldl_cons, if_neg (by simp)]
    by_cases hrole : m.role = MessageRole.System
    · rw [if_pos hrole, ih, keepRecent, if_pos hrole]
    · rw [if_neg hrole]
      by_cases hb : acc + m.estimateTokens ≤ r
      · rw [if_pos hb, ih, keepRecent, if_neg hrole, if_pos hb]
        simp
      · rw [if_neg hb, specKeepRecent_foldl_stopped r rest kept acc,
          keepRecent, if_neg hrole, if_neg hb, List.nil_append]

theorem specKeepRecent_eq (r : Nat) (msgs : List Message) :
    specKeepRecent r msgs = keepRecent r 0 msgs.reverse := by
  rw [specKeepRecent, specKeepRecent_foldl_active r msgs.reverse [] 0,
    List.append_nil]

theorem findIdx_id_of_nodup :
    ∀ (msgs : List Message) (k : Nat) (hk : k < msgs.length) (start : Nat),
      (msgs.map Message.id).Nodup →
      List.findIdx? (fun x => x.id == msgs[k].id) msgs start =
        some (start + k) := by
  intro msgs
  induction msgs with
  | nil => intro k hk start hnd; exact absurd hk (by simp)
  | cons a rest ih =>
    intro k hk start hnd
    cases k with
    | zero =>
      rw [List.findIdx?_cons, if_pos (by simp)]
      simp
    | succ k' =>
      have hk' : k' < rest.length := by
        simpa using hk
      have hnd' : a.id ∉ rest.map Message.id ∧ (rest.map Message.id).Nodup := by
        rw [List.map_cons] at hnd
        exact List.nodup_cons.mp hnd
      have hne : ¬ (a.id == (a :: rest)[k' + 1].id) = true := by
        simp only [List.getElem_cons_succ, beq_iff_eq]
        intro heq
        have h1 : rest[k'].id ∈ rest.map Message.id :=
          List.mem_map_of_mem Message.id (rest.get_mem k' hk')
        rw [← heq] at h1
        exact hnd'.1 h1
      rw [List.findIdx?_cons, if_neg hne]
      have hrest : (rest.map Message.id).Nodup := hnd'.2
      have := ih k' hk' (start + 1) hrest
      simp only [List.getElem_cons_succ]
      rw [this]
      congr 1
      omega

theorem sessionCompactE_ok (st : CompactionStrategy) (b : Nat)
    (msgs : List Message) :
    Session.compactE st b msgs = Except.ok (Session.compact st b msgs) := by
  rw [Session.compactE.eq_def, Session.compact.eq_def]
  by_cases h : totalTokens msgs ≤ b
  · rw [if_pos h, if_pos h]
  · rw [if_neg h, if_neg h]
    cases st <;> rfl

theorem managerAddMessageE_eq (cfg : ManagerConfig)
    (save : List Message → Except ContextError Unit) (msgs : List Message)
    (m : Message) :
    managerAddMessageE cfg save msgs m =
      ((if cfg.autoSave then
          match save (managerAddMessage cfg msgs m) with
          | Except.ok _ => Except.ok ()
          | Except.error e => Except.error e
        else Except.ok ()),
        managerAddMessage cfg msgs m) := by
  simp only [managerAddMessageE, managerAddMessage, sessionCompactE_ok]
  by_cases h : cfg.maxTokens < totalTokens (msgs ++ [m])
  · simp only [if_pos h]
    by_cases ha : cfg.autoSave = true
    · simp only [ha, if_true]
      cases save (Session.compact cfg.compactionStrategy cfg.maxTokens
        (msgs ++ [m])) <;> rfl
    · simp [ha]
  · simp only [if_neg h]
    by_cases ha : cfg.autoSave = true
    · simp only [ha, if_true]
      cases save (msgs ++ [m]) <;> rfl
    · simp [ha]

theorem managerAddMessageE_snd (cfg : ManagerConfig)
    (save : List Message → Except ContextError Unit) (msgs : List Message)
    (m : Message) :
    (managerAddMessageE cfg save msgs m).2 = managerAddMessage cfg msgs m := by
  rw [managerAddMessageE_eq]

theorem managerAddMessageE_fst (cfg : ManagerConfig)
    (save : List Message → Except ContextError Unit) (msgs : List Message)
    (m : Message) (ha : cfg.autoSave = true) :
    (managerAddMessageE cfg save msgs m).1 =
      save (managerAddMessage cfg msgs m) := by
  rw [managerAddMessageE_eq]
  simp only [ha, if_true]
  cases save (managerAddMessage cfg msgs m) with
  | ok u => rfl
  | error e => rfl

/-- Concrete log for the spec's SystemAndRecent scenario: one 8-token
System turn followed by five alternating 10-token User/Assistant turns. -/
def scenSystem : Message := ⟨0, MessageRole.System, 0, some 8⟩

/-- First 10-token User turn of the scenario log. -/
def scenTurn1 : Message := ⟨1, MessageRole.User, 0, some 10⟩

/-- Second 10-token Assistant turn of the scenario log. -/
def scenTurn2 : Message := ⟨2, MessageRole.Assistant, 0, some 10⟩

/-- Third 10-token User turn of the scenario log. -/
def scenTurn3 : Message := ⟨3, MessageRole.User, 0, some 10⟩

/-- Fourth 10-token Assistant turn of the scenario log. -/
def scenTurn4 : Message := ⟨4, MessageRole.Assistant, 0, some 10⟩

/-- Fifth 10-token User turn of the scenario log. -/
def scenTurn5 : Message := ⟨5, MessageRole.User, 0, some 10⟩

/-- The scenario log of the spec's SystemAndRecent test case. -/
def scenLog : List Message :=
  [scenSystem, scenTurn1, scenTurn2, scenTurn3, scenTurn4, scenTurn5]

/-- A 15-token User turn that gets dropped in the reordering example. -/
def cexOld : Message := ⟨10, MessageRole.User, 0, some 15⟩

/-- A 20-token User turn that survives in the reordering example. -/
def cexMid : Message := ⟨11, MessageRole.User, 0, some 20⟩

/-- An 8-token System turn that chronologically follows `cexMid` but is
regrouped ahead of it by the Intelligent enum strategy. -/
def cexSys : Message := ⟨12, MessageRole.System, 0, some 8⟩

/-- Log whose compaction under the Intelligent enum strategy reorders
survivors: the System turn is last here but first in the output. -/
def cexLog : List Message := [cexOld, cexMid, cexSys]

/-- A User message whose cached token count (100) exceeds every budget in
the dropped-append examples. -/
def bigMsg : Message := ⟨20, MessageRole.User, 0, some 100⟩

/-- Manager configuration with the Sliding strategy and budget 50. -/
def slidingCfg : ManagerConfig := ⟨CompactionStrategy.Sliding 50, 50, true⟩

/-- Manager configuration with the SystemAndRecent strategy (10, 25) and
budget 30. -/
def sysRecCfg : ManagerConfig :=
  ⟨CompactionStrategy.SystemAndRecent 10 25, 30, true⟩

/-- A storage save that always fails, modelling a failing
`storage.save_session`. -/
def saveFail : List Message → Except ContextError Unit :=
  fun _ => Except.error (ContextError.Storage "disk full")

/-- Single-message log used to instantiate the retention-score formula. -/
def wMsg : Message := ⟨42, MessageRole.User, 100, some 5⟩

/-- C1: for every log, the Sliding policy with budget b, the
SystemAndRecent policy with budgets s and r (overall budget s + r), and
the Intelligent policy with budget b each leave the log within the budget
after `compact`, or leave it empty; in this code the first disjunct in
fact always holds, so the single-oversized-turn escape clause is never
exercised. -/
theorem claim_C1_budget_convergence (msgs : List Message) (b s r : Nat) :
    (totalTokens (Session.compact (CompactionStrategy.Sliding b) b msgs) ≤ b ∨
      Session.compact (CompactionStrategy.Sliding b) b msgs = []) ∧
    (totalTokens (Session.compact (CompactionStrategy.SystemAndRecent s r)
        (s + r) msgs) ≤ s + r ∨
      Session.compact (CompactionStrategy.SystemAndRecent s r) (s + r) msgs
        = []) ∧
    (totalTokens (Session.compact (CompactionStrategy.Intelligent b) b msgs)
        ≤ b ∨
      Session.compact (CompactionStrategy.Intelligent b) b msgs = []) := by
  refine ⟨Or.inl ?_, Or.inl ?_, Or.inl ?_⟩
  · by_cases h : totalTokens msgs ≤ b
    · rw [sessionCompact_of_le _ _ _ h]; exact h
    · rw [Session.compact.eq_def, if_neg h]
      exact totalTokens_compactSliding_le b msgs
  · by_cases h : totalTokens msgs ≤ s + r
    · rw [sessionCompact_of_le _ _ _ h]; exact h
    · rw [Session.compact.eq_def, if_neg h]
      exact totalTokens_compactSystemAndRecent_le s r msgs
  · by_cases h : totalTokens msgs ≤ b
    · rw [sessionCompact_of_le _ _ _ h]; exact h
    · rw [Session.compact.eq_def, if_neg h]
      show totalTokens (compactIntelligent b msgs) ≤ b
      rw [compactIntelligent]
      have := totalTokens_compactSystemAndRecent_le (b / 4) (b * 3 / 4) msgs
      omega

/-- C2 counterexample: on the log [User 15, User 20, System 8] with target
40, the Intelligent enum strategy produces [System 8, User 20], which is
not a subsequence of the original — the System survivor has been regrouped
ahead of an older non-System survivor. -/
theorem claim_C2_counterexample :
    Session.compact (CompactionStrategy.Intelligent 40) 40 cexLog
      = [cexSys, cexMid] ∧
    ¬ List.Sublist
      (Session.compact (CompactionStrategy.Intelligent 40) 40 cexLog)
      cexLog := by
  refine ⟨by decide, ?_⟩
  intro h
  exact absurd h (by decide)

/-- C2 (amended): the priority-scoring compactor
`IntelligentCompactor::compact` does preserve full chronological order —
its survivors always form a subsequence of the original message sequence —
but the `CompactionStrategy::Intelligent` enum variant delegates to
SystemAndRecent and may regroup System messages ahead of non-System
survivors. -/
theorem claim_C2_intelligentCompactor_preserves_order
    (c : IntelligentCompactor) (t : Nat) (msgs : List Message) :
    List.Sublist (IntelligentCompactor.compact c t msgs) msgs :=
  icCompact_sublist c t msgs

/-- C3: for every log, target t and call budget b, `Session::compact` with
the Intelligent strategy produces exactly the same message sequence as
with SystemAndRecent (t/4, t*3/4) — the enum's Intelligent variant is
implemented by delegation, not by priority scoring. -/
theorem claim_C3_intelligent_delegates (t b : Nat) (msgs : List Message) :
    Session.compact (CompactionStrategy.Intelligent t) b msgs =
      Session.compact
        (CompactionStrategy.SystemAndRecent (t / 4) (t * 3 / 4)) b msgs := by
  rfl

/-- C4: for every log over budget, SystemAndRecent compaction produces the
greedy oldest-to-newest System selection followed by the greedy
newest-to-oldest non-System selection, both exactly as the spec words
them; and on the concrete scenario (one 8-token System turn, five
alternating 10-token turns, budgets 10 and 25) the result is
[system, turn4, turn5]. -/
theorem claim_C4_systemAndRecent_characterization :
    (∀ (sb rb b : Nat) (msgs : List Message), b < totalTokens msgs →
      Session.compact (CompactionStrategy.SystemAndRecent sb rb) b msgs =
        specKeepSystem sb msgs ++ specKeepRecent rb msgs) ∧
    Session.compact (CompactionStrategy.SystemAndRecent 10 25) 30 scenLog =
      [scenSystem, scenTurn4, scenTurn5] := by
  constructor
  · intro sb rb b msgs h
    rw [Session.compact.eq_def, if_neg (by omega), specKeepSystem_eq,
      specKeepRecent_eq]
    rfl
  · decide

/-- C4 witness: the general characterization applied to the concrete
scenario log with call budget 30. -/
theorem claim_C4_witness :
    30 < totalTokens scenLog ∧
    Session.compact (CompactionStrategy.SystemAndRecent 10 25) 30 scenLog =
      specKeepSystem 10 scenLog ++ specKeepRecent 25 scenLog :=
  ⟨by decide,
    claim_C4_systemAndRecent_characterization.1 10 25 30 scenLog (by decide)⟩

/-- C5 counterexample: with the Sliding(50) strategy and max_tokens 50,
appending a message whose cached token count is 100 to an empty session
leaves an empty session — the engine drops the turn being actively
appended. -/
theorem claim_C5_counterexample :
    managerAddMessage slidingCfg [] bigMsg = [] ∧
    bigMsg ∉ managerAddMessage slidingCfg [] bigMsg := by
  refine ⟨by decide, ?_⟩
  intro h
  exact absurd h (by decide)

/-- C5 (amended): `SessionManager::add_message` appends first, compacts
only when the total after the append exceeds max_tokens (with max_tokens
as the budget), and hands exactly the post-compaction list to persistence;
but the just-appended message is not guaranteed to survive — compaction
may drop it when its own token estimate exceeds the applicable policy
budget. -/
theorem claim_C5_addMessage_order (cfg : ManagerConfig) (msgs : List Message)
    (m : Message) (save : List Message → Except ContextError Unit) :
    (totalTokens (msgs ++ [m]) ≤ cfg.maxTokens →
      managerAddMessage cfg msgs m = msgs ++ [m]) ∧
    (cfg.maxTokens < totalTokens (msgs ++ [m]) →
      managerAddMessage cfg msgs m =
        Session.compact cfg.compactionStrategy cfg.maxTokens (msgs ++ [m])) ∧
    (managerAddMessageE cfg save msgs m).2 = managerAddMessage cfg msgs m ∧
    (cfg.autoSave = true →
      (managerAddMessageE cfg save msgs m).1 =
        save (managerAddMessage cfg msgs m)) := by
  refine ⟨?_, ?_, managerAddMessageE_snd cfg save msgs m,
    managerAddMessageE_fst cfg save msgs m⟩
  · intro h
    rw [managerAddMessage.eq_def, if_neg (by omega)]
  · intro h
    rw [managerAddMessage.eq_def, if_pos h]

/-- C5 witness: the amended ordering facts applied at a concrete
under-budget append (a 10-token user message into the empty session under
the Sliding(50)/50 configuration, with an always-failing save). -/
theorem claim_C5_witness :
    totalTokens ([] ++ [⟨7, MessageRole.User, 0, some 10⟩]) ≤
      slidingCfg.maxTokens ∧
    managerAddMessage slidingCfg [] ⟨7, MessageRole.User, 0, some 10⟩ =
      [] ++ [⟨7, MessageRole.User, 0, some 10⟩] ∧
    slidingCfg.autoSave = true ∧
    (managerAddMessageE slidingCfg saveFail []
        ⟨7, MessageRole.User, 0, some 10⟩).1 =
      saveFail (managerAddMessage slidingCfg []
        ⟨7, MessageRole.User, 0, some 10⟩) := by
  have hc := claim_C5_addMessage_order slidingCfg []
    ⟨7, MessageRole.User, 0, some 10⟩ saveFail
  exact ⟨by decide, hc.1 (by decide), rfl, hc.2.2.2 rfl⟩

/-- C6: token estimation is a total function returning the cached count
when present and otherwise the integer ceiling of content length over 4
(characterized by the two bounds), and the session total is the sum of the
per-message estimates. -/
theorem claim_C6_estimate_tokens (m : Message) (msgs : List Message) :
    (∀ cnt : Nat, m.tokenCount = some cnt → m.estimateTokens = cnt) ∧
    (m.tokenCount = none →
      m.estimateTokens = (m.contentLen + 3) / 4 ∧
      m.contentLen ≤ 4 * m.estimateTokens ∧
      4 * m.estimateTokens < m.contentLen + 4) ∧
    totalTokens msgs = (msgs.map Message.estimateTokens).sum := by
  refine ⟨?_, ?_, rfl⟩
  · intro cnt h
    rw [Message.estimateTokens.eq_def, h]
  · intro h
    have e : m.estimateTokens = (m.contentLen + 3) / 4 := by
      rw [Message.estimateTokens.eq_def, h]
    refine ⟨e, ?_, ?_⟩ <;> rw [e] <;> omega

/-- C6 witness: a message of content length 10 with no cached count
estimates to 3 tokens, and a cached count is returned as-is. -/
theorem claim_C6_witness :
    (⟨3, MessageRole.User, 10, none⟩ : Message).tokenCount = none ∧
    (⟨3, MessageRole.User, 10, none⟩ : Message).estimateTokens = 3 ∧
    (⟨4, MessageRole.User, 10, some 7⟩ : Message).tokenCount = some 7 ∧
    (⟨4, MessageRole.User, 10, some 7⟩ : Message).estimateTokens = 7 :=
  ⟨rfl,
    ((claim_C6_estimate_tokens ⟨3, MessageRole.User, 10, none⟩ []).2.1 rfl).1,
    rfl,
    (claim_C6_estimate_tokens ⟨4, MessageRole.User, 10, some 7⟩ []).1 7 rfl⟩

/-- C7: compacting twice with the same policy and budget equals compacting
once, for all three enum strategies under `Session::compact` and for the
`IntelligentCompactor`. -/
theorem claim_C7_compact_idempotent (b mx s r tt t : Nat)
    (msgs : List Message) (c : IntelligentCompactor) :
    Session.compact (CompactionStrategy.Sliding mx) b
        (Session.compact (CompactionStrategy.Sliding mx) b msgs) =
      Session.compact (CompactionStrategy.Sliding mx) b msgs ∧
    Session.compact (CompactionStrategy.SystemAndRecent s r) b
        (Session.compact (CompactionStrategy.SystemAndRecent s r) b msgs) =
      Session.compact (CompactionStrategy.SystemAndRecent s r) b msgs ∧
    Session.compact (CompactionStrategy.Intelligent tt) b
        (Session.compact (CompactionStrategy.Intelligent tt) b msgs) =
      Session.compact (CompactionStrategy.Intelligent tt) b msgs ∧
    IntelligentCompactor.compact c t (IntelligentCompactor.compact c t msgs)
      = IntelligentCompactor.compact c t msgs :=
  ⟨sessionCompact_idem _ b msgs, sessionCompact_idem _ b msgs,
    sessionCompact_idem _ b msgs, icCompact_idem c t msgs⟩

/-- C8: when the log is already within budget, `Session::compact` returns
success immediately with the message sequence unchanged (same list, hence
same identities in the same order) for every strategy, and
`IntelligentCompactor::compact` likewise. -/
theorem claim_C8_noop_under_budget (st : CompactionStrategy)
    (c : IntelligentCompactor) (b : Nat) (msgs : List Message)
    (h : totalTokens msgs ≤ b) :
    Session.compact st b msgs = msgs ∧
    Session.compactE st b msgs = Except.ok msgs ∧
    IntelligentCompactor.compact c b msgs = msgs := by
  refine ⟨sessionCompact_of_le st b msgs h, ?_, ?_⟩
  · rw [sessionCompactE_ok, sessionCompact_of_le st b msgs h]
  · rw [IntelligentCompactor.compact, if_pos h]

/-- C8 witness: the no-op facts at the concrete scenario log (58 tokens)
under budget 100. -/
theorem claim_C8_witness :
    totalTokens scenLog ≤ 100 ∧
    Session.compact (CompactionStrategy.Sliding 5) 100 scenLog = scenLog ∧
    Session.compactE (CompactionStrategy.Sliding 5) 100 scenLog =
      Except.ok scenLog ∧
    IntelligentCompactor.compact IntelligentCompactor.default 100 scenLog =
      scenLog := by
  have h : totalTokens scenLog ≤ 100 := by decide
  have hc := claim_C8_noop_under_budget (CompactionStrategy.Sliding 5)
    IntelligentCompactor.default 100 scenLog h
  exact ⟨h, hc.1, hc.2.1, hc.2.2⟩

/-- C9: for a message at position k of a log with distinct ids, the
retention score is recency (k over log length) times the recency weight,
plus the fixed role score (System 1, Tool 0.8, Assistant 0.6, User 0.4)
times the role weight, plus the capped content score times the content
weight; the default configuration carries weights 1, 0.5 and 0.3. -/
theorem claim_C9_message_priority (c : IntelligentCompactor)
    (msgs : List Message) (k : Nat) (hk : k < msgs.length)
    (hnd : (msgs.map Message.id).Nodup) :
    messagePriority c msgs[k] msgs =
      ((k : ℚ) / (msgs.length : ℚ)) * c.recencyWeight
      + (match msgs[k].role with
          | MessageRole.System => (1 : ℚ)
          | MessageRole.Tool => 4 / 5
          | MessageRole.Assistant => 3 / 5
          | MessageRole.User => 2 / 5) * c.roleWeight
      + min ((msgs[k].contentLen : ℚ) / 1000) 1 * c.contentWeight
      ∧ IntelligentCompactor.default.recencyWeight = 1
      ∧ IntelligentCompactor.default.roleWeight = 1 / 2
      ∧ IntelligentCompactor.default.contentWeight = 3 / 10 := by
  refine ⟨?_, rfl, rfl, rfl⟩
  have hf := findIdx_id_of_nodup msgs k hk 0 hnd
  simp only [messagePriority]
  rw [hf]
  simp only [Option.getD_some, Nat.zero_add]

/-- C9 witness: the formula applied to the one-message log [wMsg] (a User
message of content length 100 and cached count 5) with the default
weights: the score evaluates to 0.23. -/
theorem claim_C9_witness :
    (0 : Nat) < ([wMsg] : List Message).length ∧
    (([wMsg] : List Message).map Message.id).Nodup ∧
    messagePriority IntelligentCompactor.default
      ([wMsg] : List Message)[0] [wMsg] = 23 / 100 := by
  refine ⟨by decide, by decide, ?_⟩
  have h := (claim_C9_message_priority IntelligentCompactor.default [wMsg] 0
    (by decide) (by decide)).1
  rw [h]
  norm_num [wMsg, IntelligentCompactor.default]

/-- C10 counterexample: with the SystemAndRecent(10,25)/30 configuration
and a failing save, appending the 100-token message propagates the storage
error, but the in-memory session does not contain the appended message —
it was dropped by the compaction phase. -/
theorem claim_C10_counterexample :
    (managerAddMessageE sysRecCfg saveFail [] bigMsg).1 =
      Except.error (ContextError.Storage "disk full") ∧
    bigMsg ∉ (managerAddMessageE sysRecCfg saveFail [] bigMsg).2 := by
  refine ⟨by rfl, ?_⟩
  intro h
  exact absurd h (by decide)

/-- C10 (amended): `Session::compact` never fails (it always returns Ok of
the pure compaction result, possibly the empty list); within
`SessionManager::add_message` the in-memory session always equals the
append-and-compact result regardless of the save outcome, and a failing
save propagates its error — though the session need not still contain the
appended message, since compaction may have dropped it. -/
theorem claim_C10_error_handling (st : CompactionStrategy) (b : Nat)
    (msgs : List Message) (cfg : ManagerConfig)
    (save : List Message → Except ContextError Unit) (m : Message) :
    Session.compactE st b msgs = Except.ok (Session.compact st b msgs) ∧
    (managerAddMessageE cfg save msgs m).2 = managerAddMessage cfg msgs m ∧
    (∀ e, cfg.autoSave = true →
      save (managerAddMessage cfg msgs m) = Except.error e →
      (managerAddMessageE cfg save msgs m).1 = Except.error e) := by
  refine ⟨sessionCompactE_ok st b msgs,
    managerAddMessageE_snd cfg save msgs m, ?_⟩
  intro e ha hs
  rw [managerAddMessageE_fst cfg save msgs m ha, hs]

/-- C10 witness: the amended error-handling facts at a concrete input — a
10-token user message appended to the empty session under the
SystemAndRecent(10,25)/30 configuration with the always-failing save. -/
theorem claim_C10_witness :
    Session.compactE (CompactionStrategy.SystemAndRecent 10 25) 30 scenLog =
      Except.ok (Session.compact
        (CompactionStrategy.SystemAndRecent 10 25) 30 scenLog) ∧
    sysRecCfg.autoSave = true ∧
    saveFail (managerAddMessage sysRecCfg [] ⟨8, MessageRole.User, 0, some 10⟩)
      = Except.error (ContextError.Storage "disk full") ∧
    (managerAddMessageE sysRecCfg saveFail []
        ⟨8, MessageRole.User, 0, some 10⟩).1 =
      Except.error (ContextError.Storage "disk full") := by
  have hc := claim_C10_error_handling
    (CompactionStrategy.SystemAndRecent 10 25) 30 scenLog sysRecCfg saveFail
    ⟨8, MessageRole.User, 0, some 10⟩
  exact ⟨hc.1, rfl, rfl, hc.2.2 (ContextError.Storage "disk full") rfl rfl⟩

end GC
